import Mathlib

/-!
Verification of the statistical core of the GPA analyzer (src/main.py).

The program filters a raw spreadsheet column to GPA values in [0,4]
(line 31-32), bins them into a fixed 0.1-wide histogram (lines 39-41),
computes forward percentiles with scipy.stats.percentileofscore
(default kind, lines 61 and 75), fits a Gaussian KDE (line 69), and
answers inverse percentile queries with numpy.percentile (line 129).

Real values are modelled by rationals; library calls made by the source
(scipy percentileofscore, numpy histogram / percentile, the fitting step
of scipy gaussian_kde) are embedded from their documented semantics,
which is what the source invokes.
-/

namespace FITGPA

/-- A raw cell of the selected spreadsheet column: either a value that
pandas coerces to a number, or one it cannot coerce (`pd.to_numeric`
with coercion turns those into NaN, which `dropna` removes). -/
inductive Raw where
  | num (q : ℚ)
  | bad
deriving DecidableEq

/-- `pd.to_numeric(col, errors=coerce)` followed by `dropna()` on one cell:
numeric cells survive, non-coercible cells become NaN and are dropped. -/
def coerceNum : Raw → Option ℚ
  | Raw.num q => some q
  | Raw.bad => none

/-- Lines 31-32 of src/main.py:
`gpas = pd.to_numeric(df[gpa_column], errors=coerce).dropna()` then
`gpas = gpas[(gpas >= 0) & (gpas <= 4)]`. -/
def gpas (raw : List Raw) : List ℚ :=
  (raw.filterMap coerceNum).filter (fun q => decide (0 ≤ q) && decide (q ≤ 4))

/-- `np.count_nonzero(a < score)` — elements strictly below the score. -/
def countLt (a : List ℚ) (score : ℚ) : ℕ := a.countP (fun y => decide (y < score))

/-- `np.count_nonzero(a <= score)` — elements at or below the score. -/
def countLe (a : List ℚ) (score : ℚ) : ℕ := a.countP (fun y => decide (y ≤ score))

/-- Elements equal to the score. -/
def countEq (a : List ℚ) (score : ℚ) : ℕ := a.countP (fun y => decide (y = score))

/-- `scipy.stats.percentileofscore(a, score)` with the default
`kind=rank` used at lines 61 and 75 of src/main.py, for a non-empty
sample: `(left + right + (1 if right > left else 0)) * 50.0 / n` where
`left = count(a < score)` and `right = count(a <= score)`. -/
def pctRank (a : List ℚ) (score : ℚ) : ℚ :=
  let n := a.length
  let left := countLt a score
  let right := countLe a score
  (((left + right + (if left < right then 1 else 0) : ℕ) : ℚ) * 50) / (n : ℚ)

/-- `scipy.stats.percentileofscore` as called by the source: on an empty
sample scipy returns NaN (modelled as `none`); otherwise the rank
percentile. -/
def percentileofscore (a : List ℚ) (score : ℚ) : Option ℚ :=
  if a.length = 0 then none else some (pctRank a score)

example : percentileofscore [1, 2, 2, 3, 4] 2 = some 50 := by
  norm_num [percentileofscore, pctRank, countLt, countLe]

/-- The forward-percentile formula exactly as the specification words it:
100 × (count_less + 0.5 × count_equal) / n. Stated from the spec, for
comparison against the implementation's convention. -/
def specForwardPercentile (a : List ℚ) (score : ℚ) : ℚ :=
  100 * ((countLt a score : ℚ) + (1 / 2) * (countEq a score : ℚ)) / (a.length : ℚ)

/-- Membership of x in bin i of the given edge sequence, following
`np.histogram`: each bin is the half-open interval from its lower edge to
its upper edge, except the final bin, which is closed on both ends. -/
def inBin (edges : List ℚ) (i : ℕ) (x : ℚ) : Bool :=
  decide (edges.getD i 0 ≤ x) &&
    (if i + 2 = edges.length then decide (x ≤ edges.getD (i + 1) 0)
     else decide (x < edges.getD (i + 1) 0))

/-- `np.histogram(sample, bins=edges)` (line 41 of src/main.py): one count
per consecutive pair of edges. -/
def histogram (sample : List ℚ) (edges : List ℚ) : List ℕ :=
  (List.range (edges.length - 1)).map (fun i => sample.countP (fun x => inBin edges i x))

/-- Line 39: `bins = np.arange(0, 4.1, 0.1)`, i.e. the 41 edges
0.0, 0.1, …, 4.0. np.arange yields start + i·step in double precision;
the first and last edge are exactly 0 and 4 as doubles, and the ≈1e-16
representation error of the interior edges affects none of the binned
claims (which concern counts of elements in 0..4, bin arity, and
two-decimal labels), so the edges are embedded as exact rationals i/10. -/
def bins : List ℚ := (List.range 41).map (fun i : ℕ => (i : ℚ) / 10)

/-- Line 41: `counts, _ = np.histogram(gpas, bins=bins)`. -/
def counts (sample : List ℚ) : List ℕ := histogram sample bins

/-- Python two-decimal fixed-point formatting, for the nonnegative label
values the source produces. Every value formatted by the source is within
≈1e-15 of an exact multiple of 1/100, far from any rounding boundary, so
formatting reduces to printing an exact number of hundredths. -/
def format2f (q : ℚ) : String :=
  let c : ℕ := (⌊q * 100⌋).toNat
  toString (c / 100) ++ "." ++ (if c % 100 < 10 then "0" else "") ++ toString (c % 100)

/-- Line 40: the histogram bar labels. For each bin, the lower edge and the
upper edge minus 0.01 are each formatted to two decimals and joined by a
dash. -/
def bin_labels : List String :=
  (List.range (bins.length - 1)).map (fun i =>
    format2f (bins.getD i 0) ++ "-" ++ format2f (bins.getD (i + 1) 0 - 1 / 100))

/-- The exceptions the fitting step of `scipy.stats.gaussian_kde` can raise:
a ValueError when the dataset has fewer than two elements, and a
LinAlgError propagated from the Cholesky factorization of a singular data
covariance matrix. Neither is caught anywhere in src/main.py, and no
DataError type exists in the program. -/
inductive KdeError where
  | valueError
  | linAlgError
deriving DecidableEq

/-- The fitted state of a one-dimensional `gaussian_kde`: the sample size
(which fixes the Scott bandwidth factor n^(-1/5)) and the unbiased data
variance the kernel covariance is scaled from. -/
structure KdeModel where
  n : ℕ
  dataVariance : ℚ
deriving DecidableEq

/-- The fitting step of `scipy.stats.gaussian_kde(dataset)` (line 69 of
src/main.py) for a one-dimensional dataset: reject datasets with fewer
than two elements with a ValueError; otherwise compute the unbiased data
variance and Cholesky-factor it, which raises a LinAlgError when the
variance is not positive definite (i.e. zero, the degenerate sample). -/
def gaussian_kde (dataset : List ℚ) : Except KdeError KdeModel :=
  if dataset.length ≤ 1 then Except.error KdeError.valueError
  else
    let n := dataset.length
    let m := dataset.sum / (n : ℚ)
    let v := (dataset.map (fun x => (x - m) ^ 2)).sum / ((n : ℚ) - 1)
    if v ≤ 0 then Except.error KdeError.linAlgError
    else Except.ok ⟨n, v⟩

/-- `np.percentile(a, p)` with the default linear interpolation method
(line 129 of src/main.py): on the sorted sample of length n, the virtual
index is h = (n−1)·p/100; the result linearly interpolates between the
order statistics at ⌊h⌋ and ⌊h⌋+1 (indices clipped to the valid range)
with weight h−⌊h⌋. On an empty sample numpy raises, modelled as `none`. -/
def npPercentile (a : List ℚ) (p : ℚ) : Option ℚ :=
  if a.length = 0 then none
  else
    let s := List.insertionSort (fun x y => x ≤ y) a
    let n := s.length
    let h : ℚ := ((n : ℚ) - 1) * p / 100
    let lo := min (⌊h⌋.toNat) (n - 1)
    let hi := min (lo + 1) (n - 1)
    let g : ℚ := h - (lo : ℚ)
    some (s.getD lo 0 + g * (s.getD hi 0 - s.getD lo 0))

/-- Lines 59-62 of src/main.py: `user_gpa = st.number_input(...)` (bounded
to [0,4]) followed by `if user_gpa:` — the percentile is computed and
reported only when the entered float is truthy, i.e. nonzero. -/
def percentileStep (gpas : List ℚ) (user_gpa : ℚ) : Option ℚ :=
  if user_gpa ≠ 0 then percentileofscore gpas user_gpa else none

/-! ### Helper lemmas -/

theorem countLe_eq_add (S : List ℚ) (x : ℚ) :
    countLe S x = countLt S x + countEq S x := by
  induction S with
  | nil => rfl
  | cons y t ih =>
    simp only [countLe, countLt, countEq, List.countP_cons] at *
    rcases lt_trichotomy y x with h | h | h
    · simp [h, le_of_lt h, ne_of_lt h, ih]
      omega
    · subst h
      simp [ih, lt_irrefl]
      omega
    · simp [h.not_lt, h.not_le, h.ne', ih]

theorem countLt_mono (S : List ℚ) {x1 x2 : ℚ} (h : x1 ≤ x2) :
    countLt S x1 ≤ countLt S x2 := by
  apply List.countP_mono_left
  intro y _ hy
  simp only [decide_eq_true_eq] at hy ⊢
  exact hy.trans_le h

theorem countLe_mono (S : List ℚ) {x1 x2 : ℚ} (h : x1 ≤ x2) :
    countLe S x1 ≤ countLe S x2 := by
  apply List.countP_mono_left
  intro y _ hy
  simp only [decide_eq_true_eq] at hy ⊢
  exact hy.trans h

theorem countLe_le_countLt (S : List ℚ) {x1 x2 : ℚ} (h : x1 < x2) :
    countLe S x1 ≤ countLt S x2 := by
  apply List.countP_mono_left
  intro y _ hy
  simp only [decide_eq_true_eq] at hy ⊢
  exact hy.trans_lt h

theorem countLt_le_countLe (S : List ℚ) (x : ℚ) :
    countLt S x ≤ countLe S x := by
  apply List.countP_mono_left
  intro y _ hy
  simp only [decide_eq_true_eq] at hy ⊢
  exact hy.le

theorem sum_map_add {ι : Type} (l : List ι) (f g : ι → ℕ) :
    (l.map (fun i => f i + g i)).sum = (l.map f).sum + (l.map g).sum := by
  induction l with
  | nil => rfl
  | cons a t ih =>
    simp only [List.map_cons, List.sum_cons, ih]
    omega

theorem sum_map_indicator {ι : Type} (l : List ι) (p : ι → Bool) :
    (l.map (fun i => if p i then 1 else 0)).sum = l.countP p := by
  induction l with
  | nil => rfl
  | cons a t ih =>
    simp only [List.map_cons, List.sum_cons, List.countP_cons, ih]
    by_cases h : p a <;> simp [h] <;> omega

theorem countP_eq_one_of_unique {α : Type} (l : List α) (p : α → Bool) (a : α)
    (hnd : l.Nodup) (ha : a ∈ l) (hpa : p a) (huniq : ∀ b ∈ l, p b → b = a) :
    l.countP p = 1 := by
  induction l with
  | nil => cases ha
  | cons c t ih =>
    rw [List.countP_cons]
    rcases List.mem_cons.mp ha with rfl | hat
    · have ht : t.countP p = 0 := by
        rw [List.countP_eq_zero]
        intro b hb hpb
        have hba := huniq b (List.mem_cons_of_mem _ hb) hpb
        subst hba
        exact (List.nodup_cons.mp hnd).1 hb
      simp [hpa, ht]
    · have hca : c ≠ a := by
        rintro rfl
        exact (List.nodup_cons.mp hnd).1 hat
      have hpc : ¬ (p c = true) := fun hc =>
        hca (huniq c (List.mem_cons_self c t) hc)
      rw [ih (List.nodup_cons.mp hnd).2 hat
        (fun b hb hpb => huniq b (List.mem_cons_of_mem _ hb) hpb)]
      simp [hpc]

theorem bins_length : bins.length = 41 := by
  unfold bins
  rw [List.length_map, List.length_range]

theorem bins_getD (i : ℕ) (h : i < 41) : bins.getD i 0 = (i : ℚ) / 10 := by
  have hl : i < bins.length := by rw [bins_length]; exact h
  rw [List.getD_eq_getElem _ _ hl]
  simp only [bins, List.getElem_map, List.getElem_range]

theorem inBin_bins_iff (i : ℕ) (hi : i < 40) (x : ℚ) :
    inBin bins i x = true ↔
      ((i : ℚ) / 10 ≤ x ∧
        (if i = 39 then x ≤ 4 else x < ((i : ℚ) + 1) / 10)) := by
  have h1 : bins.getD i 0 = (i : ℚ) / 10 := bins_getD i (by omega)
  have h2 : bins.getD (i + 1) 0 = ((i : ℚ) + 1) / 10 := by
    rw [bins_getD (i + 1) (by omega)]
    push_cast
    ring
  rw [inBin, h1, h2, bins_length]
  by_cases h39 : i = 39
  · subst h39
    norm_num
  · have hne : ¬ (i + 2 = 41) := by omega
    rw [if_neg hne, if_neg h39]
    simp

theorem div10_le (j x : ℚ) : j / 10 ≤ x ↔ j ≤ 10 * x := by
  rw [div_le_iff₀ (by norm_num : (0:ℚ) < 10), mul_comm]

theorem lt_div10 (x j : ℚ) : x < j / 10 ↔ 10 * x < j := by
  rw [lt_div_iff₀ (by norm_num : (0:ℚ) < 10), mul_comm]

/-- Every GPA in [0,4] falls in exactly one of the 40 fixed-width bins. -/
theorem unique_bin (x : ℚ) (h0 : 0 ≤ x) (h4 : x ≤ 4) :
    (List.range 40).countP (fun i => inBin bins i x) = 1 := by
  have hfnn : (0 : ℤ) ≤ ⌊10 * x⌋ := Int.floor_nonneg.mpr (by positivity)
  set k : ℕ := min (⌊10 * x⌋).toNat 39 with hk
  have hk39 : k ≤ 39 := min_le_right _ _
  apply countP_eq_one_of_unique _ _ k (List.nodup_range _) (List.mem_range.mpr (by omega))
  · -- the chosen bin contains x
    rw [inBin_bins_iff k (by omega)]
    by_cases hc : (⌊10 * x⌋).toNat ≤ 38
    · have hkz : (k : ℤ) = ⌊10 * x⌋ := by
        have : k = (⌊10 * x⌋).toNat := by omega
        rw [this]
        exact Int.toNat_of_nonneg hfnn
      have hle : ((k : ℚ)) ≤ 10 * x := by
        have h := Int.floor_le (10 * x)
        rw [← hkz] at h
        exact_mod_cast h
      have hlt : 10 * x < (k : ℚ) + 1 := by
        have h := Int.lt_floor_add_one (10 * x)
        rw [← hkz] at h
        exact_mod_cast h
      have hkne : k ≠ 39 := by omega
      rw [if_neg hkne]
      exact ⟨(div10_le _ _).mpr hle, (lt_div10 _ _).mpr (by push_cast; linarith)⟩
    · have hkv : k = 39 := by omega
      have h39 : (39 : ℤ) ≤ ⌊10 * x⌋ := by omega
      have h39q : ((39 : ℚ)) ≤ 10 * x := by
        have h := Int.floor_le (10 * x)
        have h39c : ((39:ℤ):ℚ) ≤ (⌊10 * x⌋ : ℚ) := by exact_mod_cast h39
        push_cast at h39c
        linarith
      rw [hkv, if_pos rfl]
      refine ⟨(div10_le _ _).mpr ?_, h4⟩
      push_cast
      linarith
  · -- no other bin contains x
    intro j hj hpj
    have hj40 : j < 40 := List.mem_range.mp hj
    rw [inBin_bins_iff j hj40] at hpj
    by_cases hj39 : j = 39
    · subst hj39
      rw [if_pos rfl] at hpj
      have hq : (39 : ℚ) ≤ 10 * x := by
        have h := (div10_le _ _).mp hpj.1
        push_cast at h
        linarith
      have hz : (39 : ℤ) ≤ ⌊10 * x⌋ := Int.le_floor.mpr (by exact_mod_cast hq)
      omega
    · rw [if_neg hj39] at hpj
      have hle : ((j : ℚ)) ≤ 10 * x := (div10_le _ _).mp hpj.1
      have hlt : 10 * x < (j : ℚ) + 1 := by
        have h := (lt_div10 _ _).mp hpj.2
        push_cast at h
        linarith
      have hfl : ⌊10 * x⌋ = (j : ℤ) := by
        rw [Int.floor_eq_iff]
        constructor
        · push_cast
          exact hle
        · push_cast
          exact hlt
      omega

theorem histogram_cons (x : ℚ) (S : List ℚ) (edges : List ℚ) :
    (histogram (x :: S) edges).sum =
      (List.range (edges.length - 1)).countP (fun i => inBin edges i x) +
        (histogram S edges).sum := by
  rw [histogram, histogram]
  simp only [List.countP_cons]
  rw [sum_map_add, sum_map_indicator]
  omega

theorem histogram_length (S : List ℚ) (edges : List ℚ) :
    (histogram S edges).length = edges.length - 1 := by
  rw [histogram, List.length_map, List.length_range]

theorem counts_sum (S : List ℚ) (h : ∀ x ∈ S, 0 ≤ x ∧ x ≤ 4) :
    (counts S).sum = S.length := by
  induction S with
  | nil => rfl
  | cons a t ih =>
    have ha := h a (List.mem_cons_self a t)
    rw [counts, histogram_cons, bins_length]
    have h40 : 41 - 1 = 40 := rfl
    rw [h40, unique_bin a ha.1 ha.2]
    have ht := ih (fun x hx => h x (List.mem_cons_of_mem _ hx))
    rw [counts] at ht
    rw [ht, List.length_cons]
    omega

/-! ### Claim theorems -/

/-- C1, counterexample: at the quoted input S = [1,2,2,3,4], x = 2, the
program's forward percentile (scipy percentileofscore with its default
rank convention) is 50; the claim asserts 60, and the claim's own formula
100 × (count_less + 0.5 × count_equal) / n evaluates to 40. -/
theorem C1_counterexample :
    percentileofscore [1, 2, 2, 3, 4] 2 = some 50 ∧
      specForwardPercentile [1, 2, 2, 3, 4] 2 = 40 ∧
      (50 : ℚ) ≠ 60 ∧ (50 : ℚ) ≠ 40 := by
  refine ⟨?_, ?_, by norm_num, by norm_num⟩
  · norm_num [percentileofscore, pctRank, countLt, countLe]
  · norm_num [specForwardPercentile, countLt, countEq]

/-- C1, amended: for every non-empty sample S and scalar x, the program's
forward percentile equals 100 × (count_less + 0.5 × count_equal + (0.5 if
x ties at least one element of S else 0)) / |S| — scipy's default rank
convention counts the queried score itself as an extra half rank on ties;
in particular forwardPercentile([1,2,2,3,4], 2.0) = 50. -/
theorem C1_forward_percentile_rank (S : List ℚ) (x : ℚ) (h : S ≠ []) :
    percentileofscore S x =
      some (100 * ((countLt S x : ℚ) + (1 / 2) * (countEq S x : ℚ) +
        (if 0 < countEq S x then (1 : ℚ) / 2 else 0)) / (S.length : ℚ)) := by
  have hn : S.length ≠ 0 := by simpa using h
  rw [percentileofscore, if_neg hn]
  congr 1
  rw [pctRank, countLe_eq_add]
  by_cases he : 0 < countEq S x
  · have hlt : countLt S x < countLt S x + countEq S x := Nat.lt_add_of_pos_right he
    rw [if_pos hlt, if_pos he]
    have hnq : (S.length : ℚ) ≠ 0 := Nat.cast_ne_zero.mpr hn
    push_cast
    field_simp
    ring
  · have he0 : countEq S x = 0 := Nat.eq_zero_of_not_pos he
    rw [he0]
    simp only [Nat.add_zero, Nat.cast_zero, lt_self_iff_false, if_false, mul_zero, add_zero]
    push_cast
    ring_nf

/-- Witness for C1 (amended) at the spec's concrete scenario. -/
theorem C1_forward_percentile_rank_witness :
    percentileofscore [1, 2, 2, 3, 4] 2 = some 50 := by
  have h := C1_forward_percentile_rank [1, 2, 2, 3, 4] 2 (by decide)
  rw [h]
  norm_num [countLt, countEq]

/-- C2: fitting the density estimator on the all-identical sample
[3.0, 3.0, 3.0] neither substitutes a minimum bandwidth floor nor raises
a DataError: the zero data covariance makes the Cholesky factorization
inside gaussian_kde raise a LinAlgError, which line 69 of src/main.py
leaves uncaught, crashing the interaction. -/
theorem C2_zero_variance_crash :
    gaussian_kde [3, 3, 3] = Except.error KdeError.linAlgError := by
  norm_num [gaussian_kde]

/-- C3: on an empty filtered sample no downstream operation fails with a
DataError "no valid samples" (no DataError exists in src/main.py): the
forward percentile silently evaluates to NaN, the histogram silently
yields 40 zero counts, the KDE fit raises an uncaught ValueError, and the
inverse percentile raises an uncaught numpy error. -/
theorem C3_empty_sample_no_dataerror :
    percentileofscore [] 2 = none ∧
      gaussian_kde [] = Except.error KdeError.valueError ∧
      npPercentile [] 90 = none ∧
      (counts []).sum = 0 ∧ (counts []).length = 40 := by
  refine ⟨rfl, by norm_num [gaussian_kde], by norm_num [npPercentile], ?_, ?_⟩
  · rw [counts, histogram]
    simp
  · rw [counts, histogram_length, bins_length]

/-- C5: for a sample contained in [0,4], the fixed-edge histogram has
exactly 40 counts (one fewer than the 41 edges) and the counts sum to the
sample size — each element lands in exactly one bin. -/
theorem C5_histogram_total (S : List ℚ) (h : ∀ x ∈ S, 0 ≤ x ∧ x ≤ 4) :
    (counts S).length = 40 ∧ (counts S).sum = S.length := by
  refine ⟨?_, counts_sum S h⟩
  rw [counts, histogram_length, bins_length]

/-- Witness for C5 on a concrete sample. -/
theorem C5_histogram_total_witness :
    (counts [1, 2, 2, 3, 4]).length = 40 ∧
      (counts [1, 2, 2, 3, 4]).sum = ([1, 2, 2, 3, 4] : List ℚ).length :=
  C5_histogram_total [1, 2, 2, 3, 4] (by decide)

/-- C7: for a fixed non-empty sample, the program's forward percentile is
monotonic non-decreasing in the query value. -/
theorem C7_forward_percentile_monotone (S : List ℚ) (x1 x2 : ℚ)
    (hS : S ≠ []) (hx : x1 ≤ x2) :
    (percentileofscore S x1).getD 0 ≤ (percentileofscore S x2).getD 0 := by
  have hn : S.length ≠ 0 := by simpa using hS
  rw [percentileofscore, percentileofscore, if_neg hn, if_neg hn]
  simp only [Option.getD_some]
  rw [pctRank, pctRank]
  have hpos : (0 : ℚ) < (S.length : ℚ) := by
    exact_mod_cast Nat.pos_of_ne_zero hn
  have hnum : (countLt S x1 + countLe S x1 +
        (if countLt S x1 < countLe S x1 then 1 else 0) : ℕ) ≤
      (countLt S x2 + countLe S x2 +
        (if countLt S x2 < countLe S x2 then 1 else 0) : ℕ) := by
    rcases eq_or_lt_of_le hx with rfl | hlt
    · exact le_refl _
    · have h1 := countLt_mono S hx
      have h2 := countLe_mono S hx
      have h3 := countLe_le_countLt S hlt
      have h4 := countLt_le_countLe S x2
      split_ifs <;> omega
  rw [div_le_div_iff_of_pos_right hpos]
  have hc : ((countLt S x1 + countLe S x1 +
      (if countLt S x1 < countLe S x1 then 1 else 0) : ℕ) : ℚ) ≤
      ((countLt S x2 + countLe S x2 +
      (if countLt S x2 < countLe S x2 then 1 else 0) : ℕ) : ℚ) := by
    exact_mod_cast hnum
  exact mul_le_mul_of_nonneg_right hc (by norm_num)

/-- Witness for C7 at a concrete sample and pair of query values. -/
theorem C7_forward_percentile_monotone_witness :
    (percentileofscore [1, 2, 2, 3, 4] 1).getD 0 ≤
      (percentileofscore [1, 2, 2, 3, 4] 3).getD 0 :=
  C7_forward_percentile_monotone [1, 2, 2, 3, 4] 1 3 (by decide) (by norm_num)

/-- C10: the forward-percentile step at lines 59-62 is guarded by Python
float truthiness, so the in-domain entry 0.0 computes and reports no
percentile, while every entry in (0,4] does. -/
theorem C10_truthiness_guard (g : List ℚ) (x : ℚ)
    (hg : g ≠ []) (h0 : 0 < x) (h4 : x ≤ 4) :
    percentileStep g 0 = none ∧ ∃ p, percentileStep g x = some p := by
  constructor
  · rw [percentileStep]
    simp
  · rw [percentileStep, if_pos h0.ne']
    rw [percentileofscore, if_neg (by simpa using hg)]
    exact ⟨_, rfl⟩

/-- Witness for C10 on a concrete sample and entry. -/
theorem C10_truthiness_guard_witness :
    percentileStep [1, 2] 0 = none ∧ ∃ p, percentileStep [1, 2] 1 = some p :=
  C10_truthiness_guard [1, 2] 1 (by decide) (by norm_num) (by norm_num)

theorem format2f_eval (q : ℚ) (c : ℕ) (h : ⌊q * 100⌋ = (c : ℤ)) :
    format2f q = toString (c / 100) ++ "." ++
      (if c % 100 < 10 then "0" else "") ++ toString (c % 100) := by
  rw [format2f, h]
  simp

/-- The bar labels with the fixed edges resolved: label i joins i/10 and
(i+1)/10 − 0.01, each formatted to two decimals. -/
theorem bin_labels_eq :
    bin_labels = (List.range 40).map (fun i : ℕ =>
      format2f ((i : ℚ) / 10) ++ "-" ++ format2f (((i : ℚ) + 1) / 10 - 1 / 100)) := by
  rw [bin_labels, bins_length]
  apply List.map_congr_left
  intro i hi
  have hi40 : i < 40 := List.mem_range.mp hi
  rw [bins_getD i (by omega), bins_getD (i + 1) (by omega)]
  congr 2
  push_cast
  ring

theorem bin_labels_head : bin_labels.getD 0 "" = "0.00-0.09" := by
  rw [bin_labels_eq]
  rw [List.getD_eq_getElem _ _ (by simp)]
  simp only [List.getElem_map, List.getElem_range, Nat.cast_zero]
  rw [format2f_eval _ 0 (by norm_num), format2f_eval _ 9 (by norm_num)]
  rfl

/-- C4, counterexample: the first histogram label the code produces is
"0.00-0.09" (the code formats the upper edge minus 0.01), not the
"0.00-0.10" the claim asserts. -/
theorem C4_counterexample :
    bin_labels.getD 0 "" = "0.00-0.09" ∧ ("0.00-0.09" : String) ≠ "0.00-0.10" :=
  ⟨bin_labels_head, by decide⟩

/-- C4, amended: the histogram output is an ordered sequence of exactly 40
(label, count) pairs; the label of the bin with lower edge lo and upper
edge hi is lo formatted to two decimals, a dash, and hi − 0.01 formatted
to two decimals, so the first bin is labelled "0.00-0.09". -/
theorem C4_bin_labels (S : List ℚ) :
    (bin_labels.zip (counts S)).length = 40 ∧
      bin_labels = (List.range 40).map (fun i : ℕ =>
        format2f ((i : ℚ) / 10) ++ "-" ++ format2f (((i : ℚ) + 1) / 10 - 1 / 100)) ∧
      bin_labels.getD 0 "" = "0.00-0.09" := by
  refine ⟨?_, bin_labels_eq, bin_labels_head⟩
  rw [List.length_zip, bin_labels_eq, counts, histogram_length, bins_length]
  simp

theorem histogram_getD (S : List ℚ) (edges : List ℚ) (i : ℕ)
    (h : i + 1 < edges.length) :
    (histogram S edges).getD i 0 = S.countP (fun x => inBin edges i x) := by
  have hl : i < (histogram S edges).length := by rw [histogram_length]; omega
  rw [List.getD_eq_getElem _ _ hl]
  simp only [histogram, List.getElem_map, List.getElem_range]

/-- C6: for every sample and edge sequence, bin i counts the elements in
the half-open interval from edges i to edges (i+1) — closed on the right
for the final bin — and in particular the histogram of
[0.5, 1.5, 1.5, 3.9] over edges [0, 1, 2, 3, 4] is [1, 2, 0, 1]. -/
theorem C6_histogram_bin_semantics (S : List ℚ) (edges : List ℚ) (i : ℕ)
    (h : i + 1 < edges.length) :
    ((i + 2 ≠ edges.length →
        (histogram S edges).getD i 0 =
          (S.filter (fun x =>
            decide (edges.getD i 0 ≤ x) && decide (x < edges.getD (i + 1) 0))).length) ∧
      (i + 2 = edges.length →
        (histogram S edges).getD i 0 =
          (S.filter (fun x =>
            decide (edges.getD i 0 ≤ x) && decide (x ≤ edges.getD (i + 1) 0))).length)) ∧
    histogram [1/2, 3/2, 3/2, 39/10] [0, 1, 2, 3, 4] = [1, 2, 0, 1] := by
  refine ⟨⟨?_, ?_⟩, ?_⟩
  · intro hne
    rw [histogram_getD S edges i h, List.countP_eq_length_filter]
    congr 1
    apply List.filter_congr
    intro x _
    rw [inBin, if_neg hne]
  · intro heq
    rw [histogram_getD S edges i h, List.countP_eq_length_filter]
    congr 1
    apply List.filter_congr
    intro x _
    rw [inBin, if_pos heq]
  · norm_num [histogram, inBin, List.countP, List.countP.go, List.range, List.range.loop]

/-- Witness for C6: the spec's concrete histogram scenario, obtained by
instantiating the bin-semantics theorem. -/
theorem C6_histogram_bin_semantics_witness :
    histogram [1/2, 3/2, 3/2, 39/10] [0, 1, 2, 3, 4] = [1, 2, 0, 1] :=
  (C6_histogram_bin_semantics [] [0, 1] 0 (by norm_num)).2

/-- The two-stage sample filter fused into one order-preserving pass over
the raw column: keep a cell's coerced value exactly when it exists and
lies in [0,4]. -/
def cleanCell (r : Raw) : Option ℚ :=
  match coerceNum r with
  | some q => if 0 ≤ q ∧ q ≤ 4 then some q else none
  | none => none

/-- C8: SampleFilter returns exactly the subsequence of coercible,
in-range elements: the coerce-drop-filter pipeline of lines 31-32 equals
a single order-preserving pass, its output is a subsequence of the
coerced column, and every surviving value lies in [0,4]. -/
theorem C8_sample_filter (raw : List Raw) :
    gpas raw = raw.filterMap cleanCell ∧
      List.Sublist (gpas raw) (raw.filterMap coerceNum) ∧
      ∀ q ∈ gpas raw, 0 ≤ q ∧ q ≤ 4 := by
  refine ⟨?_, ?_, ?_⟩
  · induction raw with
    | nil => rfl
    | cons r t ih =>
      cases r with
      | num q =>
        simp only [gpas, List.filterMap_cons, coerceNum, cleanCell] at ih ⊢
        by_cases h0 : 0 ≤ q
        · by_cases h4 : q ≤ 4
          · simp [h0, h4, List.filter_cons, ih]
          · simp [h0, h4, List.filter_cons, ih]
        · simp [h0, List.filter_cons, ih]
      | bad =>
        simp only [gpas, List.filterMap_cons, coerceNum, cleanCell] at ih ⊢
        exact ih
  · exact List.filter_sublist _
  · intro q hq
    rw [gpas, List.mem_filter] at hq
    have hb := hq.2
    simp only [Bool.and_eq_true, decide_eq_true_eq] at hb
    exact hb

theorem npPercentile_eq (S : List ℚ) (p : ℚ) (hn0 : S.length ≠ 0) :
    npPercentile S p = some (
      (List.insertionSort (fun x y : ℚ => x ≤ y) S).getD
          (min (⌊((((List.insertionSort (fun x y : ℚ => x ≤ y) S).length : ℚ) - 1) *
              p / 100)⌋.toNat)
            ((List.insertionSort (fun x y : ℚ => x ≤ y) S).length - 1)) 0 +
        (((((List.insertionSort (fun x y : ℚ => x ≤ y) S).length : ℚ) - 1) * p / 100 -
          ((min (⌊((((List.insertionSort (fun x y : ℚ => x ≤ y) S).length : ℚ) - 1) *
              p / 100)⌋.toNat)
            ((List.insertionSort (fun x y : ℚ => x ≤ y) S).length - 1) : ℕ) : ℚ)) *
          ((List.insertionSort (fun x y : ℚ => x ≤ y) S).getD
              (min (min (⌊((((List.insertionSort (fun x y : ℚ => x ≤ y) S).length : ℚ) - 1) *
                  p / 100)⌋.toNat)
                ((List.insertionSort (fun x y : ℚ => x ≤ y) S).length - 1) + 1)
                ((List.insertionSort (fun x y : ℚ => x ≤ y) S).length - 1)) 0 -
            (List.insertionSort (fun x y : ℚ => x ≤ y) S).getD
              (min (⌊((((List.insertionSort (fun x y : ℚ => x ≤ y) S).length : ℚ) - 1) *
                  p / 100)⌋.toNat)
                ((List.insertionSort (fun x y : ℚ => x ≤ y) S).length - 1)) 0))) := by
  rw [npPercentile, if_neg hn0]

/-- C9: for a non-empty sample inside [0,4] and a percentile in [0,100],
the inverse percentile exists, is the linear interpolation between two
adjacent order statistics of the sorted sample, and therefore lies
between some two elements of the sample — in particular inside [0,4]. -/
theorem C9_inverse_percentile (S : List ℚ) (p : ℚ) (hS : S ≠ [])
    (hp0 : 0 ≤ p) (hp1 : p ≤ 100) (hS4 : ∀ y ∈ S, 0 ≤ y ∧ y ≤ 4) :
    ∃ x, npPercentile S p = some x ∧
      (∃ a ∈ S, a ≤ x) ∧ (∃ b ∈ S, x ≤ b) ∧ 0 ≤ x ∧ x ≤ 4 := by
  have hn0 : S.length ≠ 0 := by simpa using hS
  rw [npPercentile_eq S p hn0]
  set s := List.insertionSort (fun x y : ℚ => x ≤ y) S with hsdef
  have hperm : s.Perm S := List.perm_insertionSort _ S
  have hsorted : List.Sorted (fun x y : ℚ => x ≤ y) s :=
    List.sorted_insertionSort _ S
  have hlen : s.length = S.length := hperm.length_eq
  have hpos : 0 < s.length := by rw [hlen]; exact Nat.pos_of_ne_zero hn0
  set n := s.length with hndef
  set hq : ℚ := ((n : ℚ) - 1) * p / 100 with hhdef
  have hone : (1 : ℚ) ≤ (n : ℚ) := by exact_mod_cast hpos
  have hq0 : 0 ≤ hq := by
    rw [hhdef]
    apply div_nonneg _ (by norm_num)
    apply mul_nonneg _ hp0
    linarith
  have hqle : hq ≤ (n : ℚ) - 1 := by
    rw [hhdef, div_le_iff₀ (by norm_num : (0:ℚ) < 100)]
    nlinarith
  have hfl0 : 0 ≤ ⌊hq⌋ := Int.floor_nonneg.mpr hq0
  have hfl1 : ⌊hq⌋ ≤ (n : ℤ) - 1 := by
    have h1 := Int.floor_le_floor hqle
    have h2 : ((n : ℚ) - 1) = (((n : ℤ) - 1 : ℤ) : ℚ) := by push_cast; ring
    rw [h2, Int.floor_intCast] at h1
    exact h1
  set lonat := min (⌊hq⌋.toNat) (n - 1) with hlodef
  have hlo_eq : (lonat : ℤ) = ⌊hq⌋ := by
    have htn : (⌊hq⌋.toNat : ℤ) = ⌊hq⌋ := Int.toNat_of_nonneg hfl0
    have hle39 : ⌊hq⌋.toNat ≤ n - 1 := by omega
    rw [hlodef, min_eq_left hle39]
    exact htn
  have hlon1 : lonat ≤ n - 1 := min_le_right _ _
  set hinat := min (lonat + 1) (n - 1) with hhidef
  have hlo_lt : lonat < n := by omega
  have hhi_lt : hinat < n := by omega
  have hlo_le_hi : lonat ≤ hinat := by omega
  have hlocast : ((lonat : ℕ) : ℚ) = ((⌊hq⌋ : ℤ) : ℚ) := by exact_mod_cast hlo_eq
  have hg0 : 0 ≤ hq - (lonat : ℚ) := by
    rw [hlocast]
    have := Int.floor_le hq
    linarith
  have hg1 : hq - (lonat : ℚ) ≤ 1 := by
    rw [hlocast]
    have := Int.lt_floor_add_one hq
    linarith
  have hlo_lt' : lonat < s.length := by omega
  have hhi_lt' : hinat < s.length := by omega
  have hmem_a : s.getD lonat 0 ∈ S := by
    rw [List.getD_eq_getElem _ _ hlo_lt']
    exact hperm.mem_iff.mp (List.getElem_mem _)
  have hmem_b : s.getD hinat 0 ∈ S := by
    rw [List.getD_eq_getElem _ _ hhi_lt']
    exact hperm.mem_iff.mp (List.getElem_mem _)
  have hab : s.getD lonat 0 ≤ s.getD hinat 0 := by
    rcases eq_or_lt_of_le hlo_le_hi with heq | hlt
    · rw [heq]
    · rw [List.getD_eq_getElem _ _ hlo_lt', List.getD_eq_getElem _ _ hhi_lt']
      exact List.pairwise_iff_getElem.mp hsorted lonat hinat hlo_lt' hhi_lt' hlt
  set a := s.getD lonat 0 with hadef
  set b := s.getD hinat 0 with hbdef
  set v : ℚ := a + (hq - (lonat : ℚ)) * (b - a) with hvdef
  have hav : a ≤ v := by
    rw [hvdef]
    nlinarith
  have hvb : v ≤ b := by
    rw [hvdef]
    nlinarith
  refine ⟨v, rfl, ⟨a, hmem_a, hav⟩, ⟨b, hmem_b, hvb⟩, ?_, ?_⟩
  · have := (hS4 a hmem_a).1
    linarith
  · have := (hS4 b hmem_b).2
    linarith

/-- Witness for C9 at a concrete sample and percentile. -/
theorem C9_inverse_percentile_witness :
    ∃ x, npPercentile [1, 2, 3] 50 = some x ∧
      (∃ a ∈ ([1, 2, 3] : List ℚ), a ≤ x) ∧
      (∃ b ∈ ([1, 2, 3] : List ℚ), x ≤ b) ∧ 0 ≤ x ∧ x ≤ 4 :=
  C9_inverse_percentile [1, 2, 3] 50 (by decide) (by norm_num) (by norm_num)
    (by decide)

end FITGPA
